import Mathlib

/-!
Shallow embedding of the Expense-App-Tracker core (src/app.py): the sqlite-backed
credential store (`signup_user`, `login_user`, the Signup button handler) and the
per-user CSV expense ledger (`load_expense_data`, `save_expense_data`, the expense
form submit handler, the download-button export, and the monthly aggregation).

Machine-level conventions of the embedding:
* the sqlite `users` table (primary key `username`) is an association list
  `List (String × BcryptHash)`; an `INSERT` raising `sqlite3.IntegrityError`
  on a duplicate primary key is modelled by the lookup test;
* a bcrypt hash is modelled by its mathematical content (hashed password and
  salt); `bcrypt.checkpw` re-derives the comparison from the stored salt;
* the `data/` directory plus the per-user CSV files are a `FS` record holding a
  directory-exists flag and an association list from file path to CSV content;
* a CSV file is a list of rows of field strings (the delimited-text layer;
  the csv library's quoting of separators inside fields is injective and is
  elided, so fields are kept at field granularity);
* `pd.read_csv` semantics needed here: the header row names the columns; any
  field among the default NA sentinels (`""`, `"NA"`, `"N/A"`, `"NaN"`,
  `"null"`, `"None"`, ...) is a missing value (NaN); a column whose non-NA
  fields are all numerals — optionally signed decimals with optional exponent,
  or infinities — is parsed numerically; a column whose non-NA fields are all
  recognised boolean literals is parsed as booleans; and
  `parse_dates=["Date"]` parses the `Date` column as calendar dates;
* floats are modelled by `ℚ`; `st.number_input` has `min_value=0.0` and step
  0.01, so amounts written by the app are multiples of 1/100 and their decimal
  serialisation round-trips exactly, mirroring Python float repr round-trip.
-/

set_option maxRecDepth 10000

namespace ExpenseTracker

/-- Functional model of a bcrypt salted hash (`bcrypt.hashpw(password.encode(),
bcrypt.gensalt()).decode()`).  The one-way property plays no role in the control
flow, so the hash is modelled by its content: the hashed password and the salt
chosen by `gensalt`. -/
structure BcryptHash where
  pw : String
  salt : Nat
deriving DecidableEq

/-- `bcrypt.hashpw` with an explicit salt argument standing for `gensalt()`. -/
def bcrypt_hashpw (password : String) (salt : Nat) : BcryptHash :=
  ⟨password, salt⟩

/-- `bcrypt.checkpw`: re-derives the hash of the candidate password with the
stored salt and compares; true exactly when the password matches. -/
def bcrypt_checkpw (password : String) (h : BcryptHash) : Bool :=
  password == h.pw

/-- The sqlite `users` table: rows `(username, password_hash)` with `username`
the primary key.  Row order is insertion order. -/
abbrev CredDB := List (String × BcryptHash)

/-- `signup_user` (app.py lines 20-27): hash the password, then try to INSERT
`(username, hash)`; a duplicate primary key raises `sqlite3.IntegrityError`,
which is caught and reported as `False` with the table unchanged. -/
def signup_user (username password : String) (salt : Nat) (db : CredDB) :
    Bool × CredDB :=
  let hashed_pw := bcrypt_hashpw password salt
  if (db.lookup username).isSome then (false, db)
  else (true, db ++ [(username, hashed_pw)])

/-- `login_user` (app.py lines 29-34): SELECT the stored hash for the username;
`fetchone` returning `None` (no row) yields `False`, otherwise the result is
`bcrypt.checkpw(password, stored_hash)`. -/
def login_user (username password : String) (db : CredDB) : Bool :=
  match db.lookup username with
  | some h => bcrypt_checkpw password h
  | none => false

/-- Outcome shown by the Signup page: `st.success`, `st.error` ("Username
already exists."), or `st.warning` ("Please enter both username and password."). -/
inductive SignupOutcome
  | success
  | usernameTaken
  | missingInput
deriving DecidableEq

/-- Python `str.strip()` on the whitespace the text widget can produce:
drop leading and trailing whitespace characters. -/
def pyStrip (s : String) : String :=
  ⟨((s.data.dropWhile Char.isWhitespace).reverse.dropWhile Char.isWhitespace).reverse⟩

/-- The Signup button handler (app.py lines 64-71):
`if new_user and new_password:` is Python truthiness, i.e. both strings are
non-empty **before** any trimming; only then is
`signup_user(new_user.strip(), new_password)` called (the password untrimmed). -/
def signupHandler (new_user new_password : String) (salt : Nat) (db : CredDB) :
    SignupOutcome × CredDB :=
  if new_user ≠ "" ∧ new_password ≠ "" then
    match signup_user (pyStrip new_user) new_password salt db with
    | (true, db') => (SignupOutcome.success, db')
    | (false, db') => (SignupOutcome.usernameTaken, db')
  else (SignupOutcome.missingInput, db)
/-! ### Decimal digit strings

Fixed-width (`%04d` / `%02d`) and variable-width decimal numerals, with the
numeric value of a digit string, used for the ISO date format, the float
serialisation and the `YYYY-MM` period keys. -/

/-- Numeric value of a decimal digit character. -/
def digitVal (c : Char) : Nat := c.toNat - 48

/-- Numeric value of a string of decimal digits (most significant first). -/
def charsVal (l : List Char) : Nat := l.foldl (fun a c => 10 * a + digitVal c) 0

/-- Zero-padded fixed-width decimal numeral of `n` (width `w`), as produced by
`%04d`-style formatting for `n < 10 ^ w`. -/
def padDigits : Nat → Nat → List Char
  | 0, _ => []
  | w + 1, n => Nat.digitChar (n / 10 ^ w) :: padDigits w (n % 10 ^ w)

/-- Variable-width decimal numeral, fuelled to keep the recursion structural;
`natChars` instantiates the fuel so that it never runs out. -/
def natCharsAux : Nat → Nat → List Char
  | 0, _ => []
  | fuel + 1, n =>
      if n < 10 then [Nat.digitChar n]
      else natCharsAux fuel (n / 10) ++ [Nat.digitChar (n % 10)]

/-- Decimal numeral of `n`, without padding (as Python prints integers). -/
def natChars (n : Nat) : List Char := natCharsAux (n + 1) n

/-! ### Calendar dates and their ISO-8601 serialisation -/

/-- A calendar date, as produced by `st.date_input` / `pd.to_datetime`. -/
structure Date where
  year : Nat
  month : Nat
  day : Nat
deriving DecidableEq

/-- Calendar validity as guaranteed by the date widget and the datetime
library (years 1..9999). -/
def Date.Valid (d : Date) : Prop :=
  1 ≤ d.year ∧ d.year ≤ 9999 ∧ 1 ≤ d.month ∧ d.month ≤ 12 ∧ 1 ≤ d.day ∧ d.day ≤ 31

instance (d : Date) : Decidable d.Valid := by
  unfold Date.Valid
  infer_instance

/-- ISO-8601 serialisation `YYYY-MM-DD` of a date, as written by
`df.to_csv` for a date-valued column. -/
def dateChars (d : Date) : List Char :=
  padDigits 4 d.year ++ '-' :: (padDigits 2 d.month ++ '-' :: padDigits 2 d.day)

/-- `dateChars` as a string. -/
def dateString (d : Date) : String := ⟨dateChars d⟩

/-- The date parser behind `pd.read_csv(..., parse_dates=["Date"])` for the
ISO dates the app writes: exactly `YYYY-MM-DD` with decimal digits. -/
def parseDate? (s : String) : Option Date :=
  match s.data with
  | [y1, y2, y3, y4, h1, m1, m2, h2, d1, d2] =>
      if h1 == '-' && h2 == '-' && ([y1, y2, y3, y4, m1, m2, d1, d2].all Char.isDigit) then
        some ⟨charsVal [y1, y2, y3, y4], charsVal [m1, m2], charsVal [d1, d2]⟩
      else none
  | _ => none

/-! ### Decimal numbers: float serialisation and `read_csv` numeric parsing -/

/-- The number of cents of an amount: exact when `q` is a multiple of `1/100`,
which `st.number_input` (step 0.01) guarantees for every amount the app writes. -/
def ratCents (q : ℚ) : Int := (q * 100).num

/-- Decimal serialisation of a number of cents, sign then integer part then
`.` then two fraction digits (the app displays amounts with `%.2f`). -/
def centsChars (c : Int) : List Char :=
  (if c < 0 then ['-'] else [])
    ++ (natChars (c.natAbs / 100) ++ '.' :: padDigits 2 (c.natAbs % 100))

/-- Serialisation of an amount as written to the CSV file. -/
def amountString (q : ℚ) : String := ⟨centsChars (ratCents q)⟩

/-- Decimal mantissa parser: integer digits, optionally followed by `.` and
fraction digits, either side of the point possibly empty but not both (pandas
accepts `5`, `5.`, `5.5` and `.5`), with its exact rational value. -/
def parseMantissa? (l : List Char) : Option ℚ :=
  let ip := l.takeWhile (· != '.')
  let rest := l.dropWhile (· != '.')
  if !ip.all Char.isDigit then none
  else
    match rest with
    | [] => if ip.isEmpty then none else some (charsVal ip : ℚ)
    | _ :: fp =>
        if fp.all Char.isDigit && !(ip.isEmpty && fp.isEmpty) then
          some ((charsVal ip : ℚ) + (charsVal fp : ℚ) / 10 ^ fp.length)
        else none

/-- The exponent part after `e`/`E`: an optionally signed run of digits. -/
def parseExpPart? (l : List Char) : Option Int :=
  match l with
  | [] => none
  | c :: rest =>
      if c = '+' then
        if !rest.isEmpty && rest.all Char.isDigit then some (charsVal rest : Int) else none
      else if c = '-' then
        if !rest.isEmpty && rest.all Char.isDigit then some (-(charsVal rest : Int)) else none
      else if (c :: rest).all Char.isDigit then some (charsVal (c :: rest) : Int)
      else none

/-- Unsigned numeral as pandas' numeric conversion accepts it: a decimal
mantissa with an optional `e`/`E` exponent, with its exact rational value. -/
def parseUnsignedNum? (l : List Char) : Option ℚ :=
  let mant := l.takeWhile (fun c => c != 'e' && c != 'E')
  let rest := l.dropWhile (fun c => c != 'e' && c != 'E')
  match rest with
  | [] => parseMantissa? mant
  | _ :: ex =>
      match parseMantissa? mant, parseExpPart? ex with
      | some m, some k => some (m * (10 : ℚ) ^ k)
      | _, _ => none

/-- `read_csv`'s finite numeric-field test and value: an optional leading
`-` or `+` followed by an unsigned numeral. -/
def parseNumQ? (s : String) : Option ℚ :=
  match s.data with
  | [] => none
  | c :: rest =>
      if c = '-' then (parseUnsignedNum? rest).map (fun q => -q)
      else if c = '+' then parseUnsignedNum? rest
      else parseUnsignedNum? (c :: rest)

/-- Case-insensitive `inf` / `infinity`, which pandas' float conversion also
accepts. -/
def isInfChars (l : List Char) : Bool :=
  (l.map Char.toLower == ['i', 'n', 'f'])
    || (l.map Char.toLower == ['i', 'n', 'f', 'i', 'n', 'i', 't', 'y'])

/-- An optionally signed infinity field; `some neg` gives the sign. -/
def parseInf? (s : String) : Option Bool :=
  match s.data with
  | [] => none
  | c :: rest =>
      if c = '-' then (if isInfChars rest then some true else none)
      else if c = '+' then (if isInfChars rest then some false else none)
      else if isInfChars (c :: rest) then some false else none

/-- A field counts as numeric for `read_csv`'s dtype inference when it is a
finite numeral or an infinity. -/
def isNumericField (s : String) : Bool :=
  (parseNumQ? s).isSome || (parseInf? s).isSome

/-- The default NA sentinels of `pd.read_csv` (its `STR_NA_VALUES`): any
field equal to one of these reads back as missing (NaN). -/
def naValues : List String :=
  ["", "#N/A", "#N/A N/A", "#NA", "-1.#IND", "-1.#QNAN", "-NaN", "-nan",
   "1.#IND", "1.#QNAN", "<NA>", "N/A", "NA", "NULL", "NaN", "None",
   "n/a", "nan", "null"]

/-- The boolean literals `read_csv`'s C parser recognises, with their
values. -/
def boolValues : List (String × Bool) :=
  [("TRUE", true), ("True", true), ("true", true),
   ("FALSE", false), ("False", false), ("false", false)]

/-- A field's boolean reading, for `read_csv`'s bool-column inference. -/
def parseBool? (s : String) : Option Bool := boolValues.lookup s

/-! ### CSV files, `read_csv` and the filesystem -/

/-- One data row of a delimited-text file, at field granularity. -/
abbrev Row := List String

/-- A CSV file: the header row followed by the data rows. -/
abbrev Csv := List Row

/-- A parsed cell of a data frame: missing (NaN), a calendar date, a finite
number, a signed infinity, a boolean, or a plain string. -/
inductive Cell
  | nan
  | date (d : Date)
  | num (q : ℚ)
  | inf (neg : Bool)
  | bool (b : Bool)
  | str (s : String)
deriving DecidableEq

/-- `df.to_csv` serialisation of one cell; a missing value is written as the
empty field, floats and booleans as Python prints them. -/
def cellToString : Cell → String
  | Cell.nan => ""
  | Cell.date d => dateString d
  | Cell.num q => amountString q
  | Cell.inf true => "-inf"
  | Cell.inf false => "inf"
  | Cell.bool true => "True"
  | Cell.bool false => "False"
  | Cell.str s => s

/-- `read_csv` on one field: an NA sentinel is missing (NaN); the `Date`
column is parsed by `parse_dates`; a column inferred numeric takes its
numeric (possibly infinite) value; a column inferred boolean takes its
boolean value; anything else stays a string. -/
def parseField (isDate isNum isBool : Bool) (s : String) : Cell :=
  if s ∈ naValues then Cell.nan
  else if isDate then
    match parseDate? s with
    | some d => Cell.date d
    | none => Cell.str s
  else if isNum then
    match parseNumQ? s with
    | some q => Cell.num q
    | none =>
        match parseInf? s with
        | some neg => Cell.inf neg
        | none => Cell.str s
  else if isBool then
    match parseBool? s with
    | some b => Cell.bool b
    | none => Cell.str s
  else Cell.str s

/-- `read_csv`'s per-column dtype inference: a column is numeric when every
field in it is an NA sentinel or a numeral (finite or infinite). -/
def colIsNum (rows : List Row) (j : Nat) : Bool :=
  rows.all (fun r => naValues.contains (r.getD j "") || isNumericField (r.getD j ""))

/-- `read_csv`'s per-column dtype inference: a column is boolean when every
field in it is an NA sentinel or a recognised boolean literal. -/
def colIsBool (rows : List Row) (j : Nat) : Bool :=
  rows.all (fun r => naValues.contains (r.getD j "") || (parseBool? (r.getD j "")).isSome)

/-- `pd.read_csv(file, parse_dates=["Date"])`: the header row names the
columns; each data row is parsed per column, the `Date` column as dates. -/
def parseTable : Csv → List String × List (List Cell)
  | [] => ([], [])
  | header :: rows =>
      (header,
       rows.map (fun r =>
         (List.range header.length).map (fun j =>
           parseField (header.getD j "" == "Date") (colIsNum rows j)
             (colIsBool rows j) (r.getD j ""))))

/-- The storage medium of the ledger store: whether the `data/` directory
exists, and the CSV files keyed by path. -/
structure FS where
  dataDir : Bool
  files : List (String × Csv)
deriving DecidableEq

/-- The per-user ledger path `f"data/{username}_expenses.csv"`. -/
def expenseFilePath (username : String) : String :=
  "data/" ++ username ++ "_expenses.csv"

/-- Overwrite (or create) the file at `path`. -/
def setFile (path : String) (csv : Csv) (files : List (String × Csv)) :
    List (String × Csv) :=
  (path, csv) :: files.filter (fun e => e.1 != path)

/-- The canonical column shape of a ledger. -/
def canonicalHeader : List String := ["Date", "Category", "Description", "Amount"]

/-- `load_expense_data` (app.py lines 37-42): `os.makedirs("data",
exist_ok=True)` first — a write to the storage medium even on a pure read —
then parse the user's CSV if it exists, else an empty frame with the canonical
columns.  Returns the loaded frame and the filesystem after the side effect. -/
def load_expense_data (username : String) (fs : FS) :
    (List String × List (List Cell)) × FS :=
  let fs' : FS := { fs with dataDir := true }
  match fs.files.lookup (expenseFilePath username) with
  | some csv => (parseTable csv, fs')
  | none => ((canonicalHeader, []), fs')

/-- `save_expense_data` (app.py lines 44-47): `os.makedirs` then
`df.to_csv(file, index=False)` — header row plus the serialised data rows. -/
def save_expense_data (username : String) (df : List String × List (List Cell))
    (fs : FS) : FS :=
  { dataDir := true,
    files := setFile (expenseFilePath username)
      (df.1 :: df.2.map (fun row => row.map cellToString)) fs.files }

/-! ### The expense form -/

/-- One expense record as entered in the sidebar form. -/
structure ExpenseRecord where
  date : Date
  category : String
  description : String
  amount : ℚ
deriving DecidableEq

/-- The fixed category enumeration of the `st.selectbox`. -/
def categories : List String := ["Food", "Transport", "Bills", "Shopping", "Other"]

/-- `st.number_input(min_value=0.0)`: the widget cannot yield a value below
its minimum, so a negative candidate amount never reaches the submit handler. -/
def number_input (minValue x : ℚ) : Option ℚ :=
  if x < minValue then none else some x

/-- The in-memory row `[date, category, description, amount]` built by the
submit handler (app.py lines 101-102). -/
def recordCells (r : ExpenseRecord) : List Cell :=
  [Cell.date r.date, Cell.str r.category, Cell.str r.description, Cell.num r.amount]

/-- A data row of the ledger file as serialised from a submitted record. -/
def rowStrings (r : ExpenseRecord) : Row := (recordCells r).map cellToString

/-- The expense form submit handler (app.py lines 94-104): the amount passes
through the `min_value=0.0` widget; on submit the current frame (loaded at
line 90 on this script run) is extended by the new row and saved in full. -/
def expenseFormSubmit (username : String) (r : ExpenseRecord) (fs : FS) : FS :=
  match number_input 0 r.amount with
  | none => fs
  | some a =>
      let loaded := load_expense_data username fs
      let df := loaded.1
      save_expense_data username
        (df.1, df.2 ++ [[Cell.date r.date, Cell.str r.category,
                         Cell.str r.description, Cell.num a]]) loaded.2

/-- A sequence of submits of records `rs`, one script run each. -/
def submitAll (username : String) (rs : List ExpenseRecord) (fs : FS) : FS :=
  rs.foldl (fun s r => expenseFormSubmit username r s) fs

/-! ### Month keys, export, aggregation -/

/-- The characters of a `YYYY-MM` period key, zero-padded as
`pd.Period(...,'M').astype(str)` prints it. -/
def monthChars (y m : Nat) : List Char := padDigits 4 y ++ '-' :: padDigits 2 m

/-- `monthChars` as a string. -/
def monthString (y m : Nat) : String := ⟨monthChars y m⟩

/-- `pd.to_datetime(df['Date']).dt.to_period('M').astype(str)` on one date
(app.py line 126). -/
def monthOfDate (d : Date) : String := monthString d.year d.month

/-- The download-button payload (app.py lines 130-135).  By the time
`df.to_csv` runs, line 126 has already added the derived `Month` column to the
in-memory frame, so the export carries five columns.  Expressed as a function
of the ledger's records. -/
def exportAsDelimitedText (rs : List ExpenseRecord) : Csv :=
  (canonicalHeader ++ ["Month"]) ::
    rs.map (fun r => rowStrings r ++ [monthOfDate r.date])

/-- Insertion of `x` into `l` keeping the comparator-sorted order. -/
def insertLe {α : Type} (le : α → α → Bool) (x : α) : List α → List α
  | [] => [x]
  | y :: ys => if le x y then x :: y :: ys else y :: insertLe le x ys

/-- Insertion sort by a Boolean comparator (the sorted order in which
`groupby(sort=True)` emits its keys). -/
def sortByLe {α : Type} (le : α → α → Bool) (l : List α) : List α :=
  l.foldr (insertLe le) []

/-- Strict comparison of strings (the lexicographic order `groupby` sorts
string keys by). -/
def strLtB (a b : String) : Bool := decide (a < b)

/-- `df.groupby("Month")["Amount"].sum()` over the records (app.py lines
126-127): key every record by its `YYYY-MM` month string, then emit each
distinct key in sorted string order with the sum of the amounts keyed by it. -/
def monthly_sum (rs : List ExpenseRecord) : List (String × ℚ) :=
  let keyed := rs.map (fun r => (monthOfDate r.date, r.amount))
  let keys := (keyed.map Prod.fst).dedup
  (sortByLe strLtB keys).map
    (fun k => (k, ((keyed.filter (fun p => p.1 == k)).map Prod.snd).sum))

/-- The calendar year-month of a record. -/
def ymOf (r : ExpenseRecord) : Nat × Nat := (r.date.year, r.date.month)

/-- Chronological strict order on year-month pairs. -/
def ymLtB (a b : Nat × Nat) : Bool :=
  decide (a.1 < b.1 ∨ (a.1 = b.1 ∧ a.2 < b.2))

/-- `aggregateByMonth` as worded by the spec: the occupied calendar
year-months in chronological order, each with the sum of the amounts of the
records falling in it. -/
def aggregateByMonthSpec (rs : List ExpenseRecord) : List ((Nat × Nat) × ℚ) :=
  (sortByLe ymLtB ((rs.map ymOf).dedup)).map
    (fun ym => (ym, ((rs.filter (fun r => ymOf r == ym)).map (fun r => r.amount)).sum))

/-- The per-record preconditions under which the CSV layer is lossless: a
valid calendar date, a category from the selectbox enumeration, a description
that is none of `read_csv`'s NA sentinels, not a numeral (finite or infinite,
in any of the accepted formats) and not a boolean literal (else `read_csv`
returns NaN, a number or a boolean in its place), an amount that is a whole
number of cents (as the 0.01 step of the widget produces) and non-negative
(as its 0.0 minimum enforces). -/
def GoodRecord (r : ExpenseRecord) : Prop :=
  r.date.Valid ∧ r.category ∈ categories ∧ r.description ∉ naValues
    ∧ isNumericField r.description = false ∧ parseBool? r.description = none
    ∧ (r.amount * 100).den = 1 ∧ 0 ≤ r.amount

instance (r : ExpenseRecord) : Decidable (GoodRecord r) := by
  unfold GoodRecord
  infer_instance

/-- Bounds within which the fixed-width month key is order-faithful; every
calendar date satisfies them. -/
def ValidYM (p : Nat × Nat) : Prop := p.1 < 10 ^ 4 ∧ p.2 < 10 ^ 2

/-- Claim C1: `register(u, p)` succeeds iff no credential row with username `u`
exists; when a row exists, a register with any other password fails
(`UsernameTaken`) and the credential table — in particular the stored hash —
is unchanged. -/
theorem register_unique (u p p2 : String) (s s2 : Nat) (db : CredDB) :
    ((signup_user u p s db).1 = true ↔ db.lookup u = none)
    ∧ (db.lookup u ≠ none → signup_user u p2 s2 db = (false, db)) := by
  unfold signup_user
  cases h : db.lookup u <;> simp [h]

/-- Witness for `register_unique`: on a table already holding a row for
`"alice"`, a second signup with a different password fails and leaves the
table unchanged. -/
theorem register_unique_w :
    signup_user "alice" "pw2" 1 [("alice", bcrypt_hashpw "pw" 0)]
      = (false, [("alice", bcrypt_hashpw "pw" 0)]) :=
  (register_unique "alice" "pw" "pw2" 0 1 [("alice", bcrypt_hashpw "pw" 0)]).2
    (by decide)

/-- Claim C2: `verify(u, p)` is true iff `u` has a credential row whose hash
was derived from exactly `p`; an absent username yields false, and a password
mismatch yields the very same false (no distinction observable). -/
theorem verify_correct (u p : String) (db : CredDB) :
    (login_user u p db = true ↔ ∃ s, db.lookup u = some (bcrypt_hashpw p s))
    ∧ (db.lookup u = none → login_user u p db = false) := by
  unfold login_user
  cases h : db.lookup u with
  | none => simp
  | some hsh =>
      simp only [h, Option.some.injEq, bcrypt_checkpw, bcrypt_hashpw]
      constructor
      · constructor
        · intro hb
          exact ⟨hsh.salt, by cases hsh with
            | mk pw salt => simp at hb; simp [hb]⟩
        · rintro ⟨s, hs⟩
          rw [hs]
          simp
      · intro hn
        cases hn

/-- Witness for `verify_correct`: on a table where `"alice"` registered with
password `"pw"`, login with `"pw"` verifies. -/
theorem verify_correct_w :
    login_user "alice" "pw" [("alice", bcrypt_hashpw "pw" 0)] = true :=
  (verify_correct "alice" "pw" [("alice", bcrypt_hashpw "pw" 0)]).1.mpr
    ⟨0, by decide⟩

/-- Counterexample to claim C6: the username `" "` consists only of whitespace
(so it is empty after trimming), yet the Signup handler accepts it — Python
truthiness is checked before stripping — and a credential row keyed by the
trimmed, empty username is created. -/
theorem signup_trim_cex :
    signupHandler " " "p" 0 [] = (SignupOutcome.success, [("", bcrypt_hashpw "p" 0)]) := by
  decide

/-- Claim C6 as amended: a signup attempt is rejected with no write iff the
username or the password is empty **before** trimming; a whitespace-only
username passes the check and creates a row keyed by the trimmed (possibly
empty) username, and the password is used untrimmed. -/
theorem signup_validation (u p : String) (s : Nat) (db : CredDB) :
    ((signupHandler u p s db).1 = SignupOutcome.missingInput ↔ u = "" ∨ p = "")
    ∧ (u = "" ∨ p = "" → (signupHandler u p s db).2 = db) := by
  unfold signupHandler
  by_cases hu : u = ""
  · simp [hu]
  · by_cases hp : p = ""
    · simp [hu, hp]
    · simp only [hu, hp, ne_eq, not_false_eq_true, and_self, if_true, or_self]
      cases hdb : signup_user (pyStrip u) p s db with
      | mk ok db' =>
          cases ok <;> simp [hu, hp]

/-- Witness for `signup_validation`: an empty username is rejected and the
table is untouched. -/
theorem signup_validation_w :
    (signupHandler "" "p" 0 []).2 = ([] : CredDB) :=
  (signup_validation "" "p" 0 []).2 (Or.inl rfl)

/-- Claim C10: `load` creates the data directory even when the user has no
ledger, so after any load the directory exists; a load from a state without
the directory changes the storage medium, i.e. load is not write-free. -/
theorem load_creates_data_dir (u : String) (fs : FS) :
    ((load_expense_data u fs).2).dataDir = true
    ∧ (fs.dataDir = false → (load_expense_data u fs).2 ≠ fs) := by
  have hsnd : (load_expense_data u fs).2 = { fs with dataDir := true } := by
    unfold load_expense_data
    cases h : fs.files.lookup (expenseFilePath u) <;> rfl
  refine ⟨by rw [hsnd], fun hdir heq => ?_⟩
  rw [hsnd] at heq
  have hd := congrArg FS.dataDir heq
  rw [hdir] at hd
  simp at hd

/-- Witness for `load_creates_data_dir` at a state without the directory. -/
theorem load_creates_data_dir_w :
    ((load_expense_data "alice" ⟨false, []⟩).2).dataDir = true
    ∧ (load_expense_data "alice" ⟨false, []⟩).2 ≠ (⟨false, []⟩ : FS) :=
  ⟨(load_creates_data_dir "alice" ⟨false, []⟩).1,
   (load_creates_data_dir "alice" ⟨false, []⟩).2 rfl⟩

/-- Claim C7: a record with negative amount (in particular `-1`) is stopped by
the `min_value=0.0` bound of the amount widget before the submit handler runs,
so nothing is written and the stored ledger is unchanged. -/
theorem negative_amount_rejected (u : String) (r : ExpenseRecord) (fs : FS)
    (ha : r.amount < 0) :
    expenseFormSubmit u r fs = fs := by
  unfold expenseFormSubmit number_input
  rw [if_pos ha]

/-- Witness for `negative_amount_rejected` at amount `-1`. -/
theorem negative_amount_rejected_w :
    expenseFormSubmit "alice" ⟨⟨2024, 1, 5⟩, "Food", "lunch", -1⟩ ⟨false, []⟩
      = (⟨false, []⟩ : FS) :=
  negative_amount_rejected "alice" ⟨⟨2024, 1, 5⟩, "Food", "lunch", -1⟩ ⟨false, []⟩
    (by norm_num)

/-- Usernames map injectively to ledger file paths: the path is the username
between the fixed prefix `data/` and suffix `_expenses.csv`. -/
theorem expenseFilePath_inj {u v : String} (h : expenseFilePath u = expenseFilePath v) :
    u = v := by
  unfold expenseFilePath at h
  have hd := congrArg String.data h
  simp only [String.data_append, List.append_assoc] at hd
  have h1 := List.append_cancel_left hd
  have h2 := List.append_cancel_right h1
  exact congrArg String.mk h2

/-- Dropping the entries keyed `q` does not change lookups of `p ≠ q`. -/
theorem lookup_filter_ne (p q : String) (h : p ≠ q) (files : List (String × Csv)) :
    (files.filter (fun e => e.1 != q)).lookup p = files.lookup p := by
  induction files with
  | nil => rfl
  | cons e es ih =>
      by_cases hk : e.1 = q
      · have h1 : (e.1 != q) = false := by simp [hk]
        have h2 : (p == e.1) = false := by simp [hk, h]
        simp only [List.filter_cons, h1, Bool.false_eq_true, if_false, ih,
          List.lookup, h2]
      · have h1 : (e.1 != q) = true := by simp [hk]
        simp only [List.filter_cons, h1, if_true, List.lookup]
        cases hpe : p == e.1
        · exact ih
        · rfl

/-- Looking up a path other than the one just overwritten sees the old files. -/
theorem lookup_setFile_ne (p q : String) (csv : Csv) (files : List (String × Csv))
    (h : p ≠ q) : (setFile q csv files).lookup p = files.lookup p := by
  unfold setFile
  have hpq : (p == q) = false := by simpa using h
  simp only [List.lookup, hpq]
  exact lookup_filter_ne p q h files

/-- `load` does not touch the file contents, only the directory flag. -/
theorem load_files_eq (u : String) (fs : FS) :
    ((load_expense_data u fs).2).files = fs.files := by
  unfold load_expense_data
  cases fs.files.lookup (expenseFilePath u) <;> rfl

/-- Claim C5: an append for `u1` leaves the ledger that `load` returns for any
other user `u2` unchanged — the records of different users live in separate
files whose paths derive injectively from the username. -/
theorem user_isolation (u1 u2 : String) (r : ExpenseRecord) (fs : FS)
    (hne : u1 ≠ u2) :
    (load_expense_data u2 (expenseFormSubmit u1 r fs)).1
      = (load_expense_data u2 fs).1 := by
  have hpath : expenseFilePath u2 ≠ expenseFilePath u1 :=
    fun h => hne (expenseFilePath_inj h).symm
  have hfiles : (expenseFormSubmit u1 r fs).files.lookup (expenseFilePath u2)
      = fs.files.lookup (expenseFilePath u2) := by
    unfold expenseFormSubmit
    cases hni : number_input 0 r.amount with
    | none => rfl
    | some a =>
        simp only [save_expense_data]
        rw [show (load_expense_data u1 fs).2.files = fs.files from load_files_eq u1 fs]
        exact lookup_setFile_ne _ _ _ _ hpath
  unfold load_expense_data
  rw [hfiles]
  cases fs.files.lookup (expenseFilePath u2) <;> rfl

/-- Witness for `user_isolation`: after `"alice"` appends a record, `"bob"`'s
load still returns the empty canonical frame. -/
theorem user_isolation_w :
    (load_expense_data "bob"
        (expenseFormSubmit "alice" ⟨⟨2024, 1, 5⟩, "Food", "lunch", 10⟩ ⟨false, []⟩)).1
      = (load_expense_data "bob" ⟨false, []⟩).1 :=
  user_isolation "alice" "bob" ⟨⟨2024, 1, 5⟩, "Food", "lunch", 10⟩ ⟨false, []⟩
    (by decide)

/-! ### Arithmetic facts about digit strings -/

theorem digitVal_digitChar {k : Nat} (h : k < 10) : digitVal (Nat.digitChar k) = k := by
  revert k h
  decide

theorem isDigit_digitChar {k : Nat} (h : k < 10) : (Nat.digitChar k).isDigit = true := by
  revert k h
  decide

theorem charsVal_from (l : List Char) (a : Nat) :
    l.foldl (fun a c => 10 * a + digitVal c) a = a * 10 ^ l.length + charsVal l := by
  induction l generalizing a with
  | nil => simp [charsVal]
  | cons c t ih =>
      have hcv : charsVal (c :: t) = (10 * 0 + digitVal c) * 10 ^ t.length + charsVal t := by
        unfold charsVal
        simp only [List.foldl_cons]
        exact ih _
      simp only [List.foldl_cons, List.length_cons, hcv]
      rw [ih]
      ring

theorem charsVal_cons (c : Char) (t : List Char) :
    charsVal (c :: t) = digitVal c * 10 ^ t.length + charsVal t := by
  have h : charsVal (c :: t)
      = t.foldl (fun a c => 10 * a + digitVal c) (10 * 0 + digitVal c) := rfl
  rw [h, charsVal_from]
  ring

theorem charsVal_append (l1 l2 : List Char) :
    charsVal (l1 ++ l2) = charsVal l1 * 10 ^ l2.length + charsVal l2 := by
  unfold charsVal
  rw [List.foldl_append]
  exact charsVal_from l2 _

theorem length_padDigits (w n : Nat) : (padDigits w n).length = w := by
  induction w generalizing n with
  | zero => rfl
  | succ w ih => simp [padDigits, ih]

theorem all_isDigit_padDigits {w n : Nat} (h : n < 10 ^ w) :
    (padDigits w n).all Char.isDigit = true := by
  induction w generalizing n with
  | zero => rfl
  | succ w ih =>
      have hq : n / 10 ^ w < 10 := by
        rw [Nat.div_lt_iff_lt_mul (pow_pos (by norm_num) w)]
        rw [pow_succ] at h
        linarith
      simp only [padDigits, List.all_cons, Bool.and_eq_true]
      exact ⟨isDigit_digitChar hq, ih (Nat.mod_lt n (pow_pos (by norm_num) w))⟩

theorem charsVal_padDigits {w n : Nat} (h : n < 10 ^ w) :
    charsVal (padDigits w n) = n := by
  induction w generalizing n with
  | zero =>
      have h0 : n = 0 := by
        rw [pow_zero] at h
        omega
      subst h0
      rfl
  | succ w ih =>
      have hq : n / 10 ^ w < 10 := by
        rw [Nat.div_lt_iff_lt_mul (pow_pos (by norm_num) w)]
        rw [pow_succ] at h
        linarith
      rw [padDigits, charsVal_cons, digitVal_digitChar hq, length_padDigits,
        ih (Nat.mod_lt n (pow_pos (by norm_num) w))]
      have hdm := Nat.div_add_mod n (10 ^ w)
      rw [Nat.mul_comm] at hdm
      exact hdm

theorem natCharsAux_spec :
    ∀ fuel n, 1 ≤ fuel → n < 10 ^ fuel →
      natCharsAux fuel n ≠ [] ∧ (natCharsAux fuel n).all Char.isDigit = true
        ∧ charsVal (natCharsAux fuel n) = n := by
  intro fuel
  induction fuel with
  | zero => omega
  | succ fuel ih =>
      intro n _ hn
      by_cases h10 : n < 10
      · simp [natCharsAux, h10, charsVal_cons, charsVal,
          digitVal_digitChar h10, isDigit_digitChar h10]
      · have hfuel : 1 ≤ fuel := by
          rcases Nat.eq_zero_or_pos fuel with hf | hf
          · subst hf
            norm_num at hn
            omega
          · exact hf
        have hdiv : n / 10 < 10 ^ fuel := by
          rw [Nat.div_lt_iff_lt_mul (by norm_num)]
          rw [pow_succ] at hn
          linarith
        obtain ⟨hne, hdig, hval⟩ := ih (n / 10) hfuel hdiv
        have hm : n % 10 < 10 := Nat.mod_lt n (by norm_num)
        refine ⟨?_, ?_, ?_⟩
        · simp [natCharsAux, h10]
        · simp only [natCharsAux, h10, if_false, List.all_append, List.all_cons,
            List.all_nil, Bool.and_eq_true]
          exact ⟨hdig, isDigit_digitChar hm, trivial⟩
        · simp only [natCharsAux, h10, if_false]
          rw [charsVal_append, hval, charsVal_cons, digitVal_digitChar hm]
          simp [charsVal]
          omega

theorem natChars_spec (n : Nat) :
    natChars n ≠ [] ∧ (natChars n).all Char.isDigit = true ∧ charsVal (natChars n) = n := by
  apply natCharsAux_spec (n + 1) n (by omega)
  calc n < 10 ^ n := Nat.lt_pow_self (by norm_num) n
    _ ≤ 10 ^ (n + 1) := Nat.pow_le_pow_right (by norm_num) (Nat.le_succ n)

/-! ### Round trips of the field serialisations -/

theorem parseNumQ?_cons (c : Char) (rest : List Char) :
    parseNumQ? ⟨c :: rest⟩
      = if c = '-' then (parseUnsignedNum? rest).map (fun q => -q)
        else if c = '+' then parseUnsignedNum? rest
        else parseUnsignedNum? (c :: rest) := rfl

theorem parseInf?_cons (c : Char) (rest : List Char) :
    parseInf? ⟨c :: rest⟩
      = if c = '-' then (if isInfChars rest then some true else none)
        else if c = '+' then (if isInfChars rest then some false else none)
        else if isInfChars (c :: rest) then some false else none := rfl

theorem isDigit_ne_dot {c : Char} (h : c.isDigit = true) : (c != '.') = true := by
  simp only [bne_iff_ne, ne_eq]
  intro he
  subst he
  exact absurd h (by decide)

theorem isDigit_ne_dash {c : Char} (h : c.isDigit = true) : c ≠ '-' := by
  intro he
  subst he
  exact absurd h (by decide)

theorem isDigit_ne_plus {c : Char} (h : c.isDigit = true) : c ≠ '+' := by
  intro he
  subst he
  exact absurd h (by decide)

theorem isDigit_ne_eE {c : Char} (h : c.isDigit = true) :
    (c != 'e' && c != 'E') = true := by
  rw [Bool.and_eq_true]
  constructor
  · simp only [bne_iff_ne, ne_eq]
    intro he
    subst he
    exact absurd h (by decide)
  · simp only [bne_iff_ne, ne_eq]
    intro he
    subst he
    exact absurd h (by decide)

theorem takeWhile_append_of_all {p : Char → Bool} {l1 : List Char}
    (h : ∀ c ∈ l1, p c = true) {x : Char} (hx : p x = false) (l2 : List Char) :
    (l1 ++ x :: l2).takeWhile p = l1 ∧ (l1 ++ x :: l2).dropWhile p = x :: l2 := by
  induction l1 with
  | nil => simp [List.takeWhile_cons, List.dropWhile_cons, hx]
  | cons c t ih =>
      have hc : p c = true := h c (by simp)
      have ht := ih (fun d hd => h d (by simp [hd]))
      simp [List.takeWhile_cons, List.dropWhile_cons, hc, ht.1, ht.2]

theorem takeWhile_eq_self_of_all {p : Char → Bool} {l : List Char}
    (h : ∀ c ∈ l, p c = true) :
    l.takeWhile p = l ∧ l.dropWhile p = [] := by
  induction l with
  | nil => simp
  | cons c t ih =>
      have hc : p c = true := h c (by simp)
      have ht := ih (fun d hd => h d (by simp [hd]))
      simp [List.takeWhile_cons, List.dropWhile_cons, hc, ht.1, ht.2]

theorem parseMantissa?_frac {ipart fpart : List Char}
    (hne : ipart ≠ []) (hdig : ipart.all Char.isDigit = true)
    (hfdig : fpart.all Char.isDigit = true) :
    parseMantissa? (ipart ++ '.' :: fpart)
      = some ((charsVal ipart : ℚ) + (charsVal fpart : ℚ) / 10 ^ fpart.length) := by
  have hall : ∀ c ∈ ipart, (c != '.') = true :=
    fun c hc => isDigit_ne_dot (List.all_eq_true.mp hdig c hc)
  obtain ⟨ht, hd⟩ := takeWhile_append_of_all hall (x := '.') (by decide) fpart
  unfold parseMantissa?
  simp only [ht, hd]
  rw [hdig]
  simp [hne, hfdig]

theorem parseUnsignedNum?_frac {ipart fpart : List Char}
    (hne : ipart ≠ []) (hdig : ipart.all Char.isDigit = true)
    (hfdig : fpart.all Char.isDigit = true) :
    parseUnsignedNum? (ipart ++ '.' :: fpart)
      = some ((charsVal ipart : ℚ) + (charsVal fpart : ℚ) / 10 ^ fpart.length) := by
  have hall : ∀ c ∈ ipart ++ '.' :: fpart, (c != 'e' && c != 'E') = true := by
    intro c hc
    rcases List.mem_append.mp hc with h1 | h2
    · exact isDigit_ne_eE (List.all_eq_true.mp hdig c h1)
    · rcases List.mem_cons.mp h2 with hdot | h3
      · subst hdot
        decide
      · exact isDigit_ne_eE (List.all_eq_true.mp hfdig c h3)
  obtain ⟨ht, hd⟩ := takeWhile_eq_self_of_all hall
  unfold parseUnsignedNum?
  simp only [ht, hd]
  exact parseMantissa?_frac hne hdig hfdig

theorem parseNumQ?_centsChars (c : Int) :
    parseNumQ? ⟨centsChars c⟩ = some ((c : ℚ) / 100) := by
  obtain ⟨hne, hdig, hval⟩ := natChars_spec (c.natAbs / 100)
  have hmlt : c.natAbs % 100 < 10 ^ 2 := by
    have := Nat.mod_lt c.natAbs (y := 100) (by norm_num)
    norm_num
    omega
  have hfdig : (padDigits 2 (c.natAbs % 100)).all Char.isDigit = true :=
    all_isDigit_padDigits hmlt
  have hu := parseUnsignedNum?_frac hne hdig hfdig
  rw [hval, charsVal_padDigits hmlt, length_padDigits] at hu
  have hvalq : ((c.natAbs / 100 : Nat) : ℚ) + ((c.natAbs % 100 : Nat) : ℚ) / 10 ^ 2
      = (c.natAbs : ℚ) / 100 := by
    have hdm := Nat.div_add_mod c.natAbs 100
    have hq : ((100 * (c.natAbs / 100) + c.natAbs % 100 : Nat) : ℚ) = (c.natAbs : ℚ) := by
      rw [hdm]
    push_cast at hq
    field_simp
    linarith
  by_cases hc : c < 0
  · have hdata : centsChars c = '-' :: (natChars (c.natAbs / 100) ++ '.' :: padDigits 2 (c.natAbs % 100)) := by
      unfold centsChars
      rw [if_pos hc]
      rfl
    have habs : ((c.natAbs : Nat) : ℚ) = -(c : ℚ) := by
      have h1 : ((c.natAbs : Int)) = -c := by omega
      have h2 : (((c.natAbs : Int)) : ℚ) = ((-c : Int) : ℚ) := by rw [h1]
      rw [Int.cast_natCast, Int.cast_neg] at h2
      exact h2
    have hred : parseNumQ? ⟨'-' :: (natChars (c.natAbs / 100) ++ '.' :: padDigits 2 (c.natAbs % 100))⟩
        = Option.map (fun q => -q)
            (parseUnsignedNum? (natChars (c.natAbs / 100) ++ '.' :: padDigits 2 (c.natAbs % 100))) := rfl
    rw [show (⟨centsChars c⟩ : String)
        = ⟨'-' :: (natChars (c.natAbs / 100) ++ '.' :: padDigits 2 (c.natAbs % 100))⟩ from by rw [hdata]]
    rw [hred, hu, hvalq, habs]
    simp only [Option.map_some']
    congr 1
    ring
  · have hdata : centsChars c = natChars (c.natAbs / 100) ++ '.' :: padDigits 2 (c.natAbs % 100) := by
      unfold centsChars
      rw [if_neg hc]
      rfl
    have habs : ((c.natAbs : Nat) : ℚ) = (c : ℚ) := by
      have h1 : ((c.natAbs : Int)) = c := by omega
      have h2 : (((c.natAbs : Int)) : ℚ) = ((c : Int) : ℚ) := by rw [h1]
      rw [Int.cast_natCast] at h2
      exact h2
    cases hl : natChars (c.natAbs / 100) with
    | nil => exact absurd hl hne
    | cons c0 tl =>
        have hc0 : c0.isDigit = true := by
          have := List.all_eq_true.mp hdig c0 (by rw [hl]; simp)
          exact this
        unfold parseNumQ?
        rw [hdata, hl]
        simp only [List.cons_append]
        rw [if_neg (isDigit_ne_dash hc0), if_neg (isDigit_ne_plus hc0)]
        rw [show c0 :: (tl ++ '.' :: padDigits 2 (c.natAbs % 100))
            = (c0 :: tl) ++ '.' :: padDigits 2 (c.natAbs % 100) from rfl, ← hl, hu]
        congr 1
        rw [hvalq, habs]

theorem parseNumQ?_amountString {q : ℚ} (hden : (q * 100).den = 1) :
    parseNumQ? (amountString q) = some q := by
  unfold amountString ratCents
  rw [parseNumQ?_centsChars]
  congr 1
  have h1 : (((q * 100).num : ℚ)) = q * 100 := by
    conv_rhs => rw [← Rat.num_div_den (q * 100)]
    rw [hden]
    simp
  rw [h1]
  ring

theorem padDigits_four_eq (n : Nat) :
    padDigits 4 n = [Nat.digitChar (n / 1000), Nat.digitChar (n % 1000 / 100),
      Nat.digitChar (n % 1000 % 100 / 10), Nat.digitChar (n % 1000 % 100 % 10)] := by
  simp [padDigits]

theorem padDigits_two_eq (n : Nat) :
    padDigits 2 n = [Nat.digitChar (n / 10), Nat.digitChar (n % 10)] := by
  simp [padDigits]

theorem charsVal_nil : charsVal [] = 0 := rfl

/-! ### Serialised fields are not NA sentinels, booleans or (for text) numerals -/

theorem dateString_not_na (d : Date) : dateString d ∉ naValues := by
  intro hmem
  have hna : ∀ s ∈ naValues, s.data.length ≠ 10 := by decide
  apply hna _ hmem
  show (dateChars d).length = 10
  unfold dateChars
  simp [length_padDigits]

theorem amountString_not_na (q : ℚ) : amountString q ∉ naValues := by
  intro hmem
  have hna : ∀ s ∈ naValues, (s.data.getLast?.map Char.isDigit).getD false = false := by
    decide
  have hshape : (amountString q).data
      = ((if ratCents q < 0 then ['-'] else [])
          ++ natChars ((ratCents q).natAbs / 100)
          ++ ['.', Nat.digitChar ((ratCents q).natAbs % 100 / 10)])
        ++ [Nat.digitChar ((ratCents q).natAbs % 100 % 10)] := by
    show centsChars (ratCents q) = _
    unfold centsChars
    rw [padDigits_two_eq]
    simp [List.append_assoc]
  have hlast := hna _ hmem
  rw [hshape, List.getLast?_concat] at hlast
  simp only [Option.map_some', Option.getD_some] at hlast
  rw [isDigit_digitChar (Nat.mod_lt _ (by norm_num))] at hlast
  cases hlast

theorem parseDate?_dateString {d : Date} (hv : d.Valid) :
    parseDate? (dateString d) = some d := by
  obtain ⟨hy1, hy2, hm1, hm2, hd1, hd2⟩ := hv
  unfold dateString dateChars parseDate?
  rw [padDigits_four_eq, padDigits_two_eq, padDigits_two_eq]
  simp only [List.cons_append, List.nil_append]
  have e1 : digitVal (Nat.digitChar (d.year / 1000)) = d.year / 1000 :=
    digitVal_digitChar (by omega)
  have e2 : digitVal (Nat.digitChar (d.year % 1000 / 100)) = d.year % 1000 / 100 :=
    digitVal_digitChar (by omega)
  have e3 : digitVal (Nat.digitChar (d.year % 1000 % 100 / 10)) = d.year % 1000 % 100 / 10 :=
    digitVal_digitChar (by omega)
  have e4 : digitVal (Nat.digitChar (d.year % 1000 % 100 % 10)) = d.year % 1000 % 100 % 10 :=
    digitVal_digitChar (by omega)
  have e5 : digitVal (Nat.digitChar (d.month / 10)) = d.month / 10 :=
    digitVal_digitChar (by omega)
  have e6 : digitVal (Nat.digitChar (d.month % 10)) = d.month % 10 :=
    digitVal_digitChar (by omega)
  have e7 : digitVal (Nat.digitChar (d.day / 10)) = d.day / 10 :=
    digitVal_digitChar (by omega)
  have e8 : digitVal (Nat.digitChar (d.day % 10)) = d.day % 10 :=
    digitVal_digitChar (by omega)
  have i1 : (Nat.digitChar (d.year / 1000)).isDigit = true := isDigit_digitChar (by omega)
  have i2 : (Nat.digitChar (d.year % 1000 / 100)).isDigit = true := isDigit_digitChar (by omega)
  have i3 : (Nat.digitChar (d.year % 1000 % 100 / 10)).isDigit = true := isDigit_digitChar (by omega)
  have i4 : (Nat.digitChar (d.year % 1000 % 100 % 10)).isDigit = true := isDigit_digitChar (by omega)
  have i5 : (Nat.digitChar (d.month / 10)).isDigit = true := isDigit_digitChar (by omega)
  have i6 : (Nat.digitChar (d.month % 10)).isDigit = true := isDigit_digitChar (by omega)
  have i7 : (Nat.digitChar (d.day / 10)).isDigit = true := isDigit_digitChar (by omega)
  have i8 : (Nat.digitChar (d.day % 10)).isDigit = true := isDigit_digitChar (by omega)
  simp only [List.all_cons, List.all_nil, i1, i2, i3, i4, i5, i6, i7, i8,
    Bool.and_true, Bool.and_self, beq_self_eq_true, Bool.true_and, if_true]
  simp only [charsVal_cons, charsVal_nil, List.length_cons, List.length_nil,
    e1, e2, e3, e4, e5, e6, e7, e8]
  have hy : d.year / 1000 * 10 ^ 3 + (d.year % 1000 / 100 * 10 ^ 2
      + (d.year % 1000 % 100 / 10 * 10 ^ 1 + (d.year % 1000 % 100 % 10 * 10 ^ 0 + 0)))
      = d.year := by
    norm_num
    omega
  have hm : d.month / 10 * 10 ^ 1 + (d.month % 10 * 10 ^ 0 + 0) = d.month := by
    norm_num
    omega
  have hd : d.day / 10 * 10 ^ 1 + (d.day % 10 * 10 ^ 0 + 0) = d.day := by
    norm_num
    omega
  rw [hy, hm, hd]

/-! ### Month keys (`to_period('M').astype(str)`) -/

theorem length_monthChars (y m : Nat) : (monthChars y m).length = 7 := by
  unfold monthChars
  simp [length_padDigits]

theorem monthString_not_na {y m : Nat} (hy : y < 10 ^ 4) :
    monthString y m ∉ naValues := by
  intro hmem
  have hna : ∀ s ∈ naValues, s.data.length = 7
      → ((s.data.take 2).all Char.isDigit) = false := by
    decide
  have h2 := hna _ hmem (length_monthChars y m)
  have htake : (monthChars y m).take 2
      = [Nat.digitChar (y / 1000), Nat.digitChar (y % 1000 / 100)] := by
    unfold monthChars
    rw [padDigits_four_eq]
    rfl
  rw [show (monthString y m).data = monthChars y m from rfl, htake] at h2
  simp only [List.all_cons, List.all_nil, Bool.and_true] at h2
  rw [isDigit_digitChar (by omega), isDigit_digitChar (by omega)] at h2
  exact absurd h2 (by decide)

theorem isInfChars_length {l : List Char} (h : isInfChars l = true) :
    l.length = 3 ∨ l.length = 8 := by
  unfold isInfChars at h
  rw [Bool.or_eq_true] at h
  rcases h with h | h
  · left
    have he : l.map Char.toLower = ['i', 'n', 'f'] := eq_of_beq h
    have hlen := congrArg List.length he
    simpa using hlen
  · right
    have he : l.map Char.toLower = ['i', 'n', 'f', 'i', 'n', 'i', 't', 'y'] := eq_of_beq h
    have hlen := congrArg List.length he
    simpa using hlen

theorem parseInf?_monthString {y m : Nat} (hy : y < 10 ^ 4) :
    parseInf? (monthString y m) = none := by
  have hinf : isInfChars (monthChars y m) = false := by
    cases hb : isInfChars (monthChars y m)
    · rfl
    · have h38 := isInfChars_length hb
      have h7 := length_monthChars y m
      omega
  have hc0 : (Nat.digitChar (y / 10 ^ 3)).isDigit = true := by
    apply isDigit_digitChar
    omega
  unfold monthString
  rw [show monthChars y m
      = Nat.digitChar (y / 10 ^ 3) :: (padDigits 3 (y % 10 ^ 3) ++ '-' :: padDigits 2 m) from rfl]
  rw [parseInf?_cons, if_neg (isDigit_ne_dash hc0), if_neg (isDigit_ne_plus hc0)]
  rw [show Nat.digitChar (y / 10 ^ 3) :: (padDigits 3 (y % 10 ^ 3) ++ '-' :: padDigits 2 m)
      = monthChars y m from rfl, hinf]
  rfl

theorem ne_of_data_length {s t : String} (h : s.data.length ≠ t.data.length) :
    s ≠ t := by
  intro he
  subst he
  exact h rfl

theorem parseBool?_eq_none {s : String} (h : ∀ p ∈ boolValues, s ≠ p.1) :
    parseBool? s = none := by
  have h1 : (s == "TRUE") = false := by simpa using h ("TRUE", true) (by simp [boolValues])
  have h2 : (s == "True") = false := by simpa using h ("True", true) (by simp [boolValues])
  have h3 : (s == "true") = false := by simpa using h ("true", true) (by simp [boolValues])
  have h4 : (s == "FALSE") = false := by simpa using h ("FALSE", false) (by simp [boolValues])
  have h5 : (s == "False") = false := by simpa using h ("False", false) (by simp [boolValues])
  have h6 : (s == "false") = false := by simpa using h ("false", false) (by simp [boolValues])
  simp [parseBool?, boolValues, List.lookup, h1, h2, h3, h4, h5, h6]

theorem parseBool?_monthString (y m : Nat) : parseBool? (monthString y m) = none := by
  apply parseBool?_eq_none
  intro p hp
  apply ne_of_data_length
  rw [show (monthString y m).data.length = 7 from length_monthChars y m]
  fin_cases hp <;> decide

theorem mem_monthChars_ne_dot {y m : Nat} (hy : y < 10 ^ 4) (hm : m < 10 ^ 2) :
    ∀ c ∈ monthChars y m, (c != '.') = true := by
  intro c hc
  unfold monthChars at hc
  rcases List.mem_append.mp hc with h4 | hrest
  · exact isDigit_ne_dot (List.all_eq_true.mp (all_isDigit_padDigits hy) c h4)
  · rcases List.mem_cons.mp hrest with hdash | h2
    · subst hdash
      decide
    · exact isDigit_ne_dot (List.all_eq_true.mp (all_isDigit_padDigits hm) c h2)

theorem parseNumQ?_monthString {y m : Nat} (hy : y < 10 ^ 4) (hm : m < 10 ^ 2) :
    parseNumQ? (monthString y m) = none := by
  have hdash : '-' ∈ monthChars y m := by
    unfold monthChars
    simp
  have hnotall : (monthChars y m).all Char.isDigit = false := by
    cases hall : (monthChars y m).all Char.isDigit
    · rfl
    · have := List.all_eq_true.mp hall '-' hdash
      exact absurd this (by decide)
  have hsplit := takeWhile_eq_self_of_all (mem_monthChars_ne_dot hy hm)
  have hmant : parseMantissa? (monthChars y m) = none := by
    unfold parseMantissa?
    simp [hsplit.1, hsplit.2, hnotall]
  have heE : ∀ c ∈ monthChars y m, (c != 'e' && c != 'E') = true := by
    intro c hc
    unfold monthChars at hc
    rcases List.mem_append.mp hc with h4 | hrest
    · exact isDigit_ne_eE (List.all_eq_true.mp (all_isDigit_padDigits hy) c h4)
    · rcases List.mem_cons.mp hrest with hdash2 | h2
      · subst hdash2
        decide
      · exact isDigit_ne_eE (List.all_eq_true.mp (all_isDigit_padDigits hm) c h2)
  have hsplitE := takeWhile_eq_self_of_all heE
  have hbody : parseUnsignedNum? (monthChars y m) = none := by
    unfold parseUnsignedNum?
    simp only [hsplitE.1, hsplitE.2]
    exact hmant
  unfold monthString at *
  rw [show monthChars y m = Nat.digitChar (y / 10 ^ 3) :: (padDigits 3 (y % 10 ^ 3) ++ '-' :: padDigits 2 m) from rfl] at *
  have hc0 : (Nat.digitChar (y / 10 ^ 3)).isDigit = true := by
    apply isDigit_digitChar
    omega
  rw [parseNumQ?_cons, if_neg (isDigit_ne_dash hc0), if_neg (isDigit_ne_plus hc0)]
  exact hbody

/-! ### The category enumeration -/

theorem categories_spec : ∀ s ∈ categories,
    s ∉ naValues ∧ isNumericField s = false ∧ parseBool? s = none := by
  decide

/-! ### Parsing whole ledger tables -/

theorem parseField_dateCol {d : Date} (hv : d.Valid) (b b' : Bool) :
    parseField true b b' (dateString d) = Cell.date d := by
  unfold parseField
  rw [if_neg (dateString_not_na d)]
  simp [parseDate?_dateString hv]

theorem parseField_strCol {s : String} (b b' : Bool) (hna : s ∉ naValues)
    (hnum : isNumericField s = false) (hbool : parseBool? s = none) :
    parseField false b b' s = Cell.str s := by
  have h1 : parseNumQ? s = none := by
    cases h : parseNumQ? s with
    | none => rfl
    | some q =>
        unfold isNumericField at hnum
        rw [h] at hnum
        simp at hnum
  have h2 : parseInf? s = none := by
    cases h : parseInf? s with
    | none => rfl
    | some v =>
        unfold isNumericField at hnum
        rw [h] at hnum
        simp at hnum
  unfold parseField
  rw [if_neg hna]
  cases b <;> cases b' <;> simp [h1, h2, hbool]

theorem parseField_amountCol {q : ℚ} (hden : (q * 100).den = 1) (b : Bool) :
    parseField false true b (amountString q) = Cell.num q := by
  unfold parseField
  rw [if_neg (amountString_not_na q)]
  simp [parseNumQ?_amountString hden]

theorem rowStrings_eq (r : ExpenseRecord) :
    rowStrings r
      = [dateString r.date, r.category, r.description, amountString r.amount] := rfl

theorem colIsNum_amountCol (rs : List ExpenseRecord) (tail : ExpenseRecord → List String)
    (h : ∀ r ∈ rs, (r.amount * 100).den = 1) :
    colIsNum (rs.map (fun r => rowStrings r ++ tail r)) 3 = true := by
  unfold colIsNum
  rw [List.all_eq_true]
  intro row hrow
  rw [List.mem_map] at hrow
  obtain ⟨r, hr, hrow⟩ := hrow
  subst hrow
  rw [rowStrings_eq]
  simp only [List.cons_append, List.getD_cons_succ, List.getD_cons_zero]
  have hsome := parseNumQ?_amountString (h r hr)
  simp [isNumericField, hsome]

theorem parseRow_canonical (rows : List Row) (r : ExpenseRecord)
    (hnum3 : colIsNum rows 3 = true)
    (hv : r.date.Valid) (hcat : r.category ∈ categories)
    (hdna : r.description ∉ naValues) (hdnum : isNumericField r.description = false)
    (hdbool : parseBool? r.description = none)
    (hden : (r.amount * 100).den = 1) :
    (List.range canonicalHeader.length).map (fun j =>
      parseField (canonicalHeader.getD j "" == "Date") (colIsNum rows j)
        (colIsBool rows j) ((rowStrings r).getD j "")) = recordCells r := by
  obtain ⟨hcna, hcnum, hcbool⟩ := categories_spec r.category hcat
  rw [show List.range canonicalHeader.length = [0, 1, 2, 3] from rfl]
  rw [rowStrings_eq]
  simp only [List.map_cons, List.map_nil, List.getD_cons_zero, List.getD_cons_succ]
  rw [show (canonicalHeader.getD 0 "" == "Date") = true from rfl,
    show (canonicalHeader.getD 1 "" == "Date") = false from rfl,
    show (canonicalHeader.getD 2 "" == "Date") = false from rfl,
    show (canonicalHeader.getD 3 "" == "Date") = false from rfl,
    hnum3, parseField_dateCol hv, parseField_strCol _ _ hcna hcnum hcbool,
    parseField_strCol _ _ hdna hdnum hdbool, parseField_amountCol hden]
  rfl

/-- Re-parsing a canonical ledger file recovers the in-memory rows of the
records it was serialised from — under the `GoodRecord` preconditions. -/
theorem parseTable_canonical (rs : List ExpenseRecord)
    (h : ∀ r ∈ rs, GoodRecord r) :
    parseTable (canonicalHeader :: rs.map rowStrings)
      = (canonicalHeader, rs.map recordCells) := by
  unfold parseTable
  refine congrArg (Prod.mk canonicalHeader) ?_
  have hnum3 : colIsNum (rs.map rowStrings) 3 = true := by
    have h3 := colIsNum_amountCol rs (fun _ => []) (fun r hr => (h r hr).2.2.2.2.2.1)
    simpa using h3
  rw [List.map_map]
  apply List.map_congr_left
  intro r hr
  obtain ⟨hv, hcat, hdna, hdnum, hdbool, hden, -⟩ := h r hr
  exact parseRow_canonical (rs.map rowStrings) r hnum3 hv hcat hdna hdnum hdbool hden

/-! ### The ledger file across submits -/

theorem submit_step (u : String) (r : ExpenseRecord) (rs0 : List ExpenseRecord)
    (fs : FS) (hr : GoodRecord r) (hrs0 : ∀ x ∈ rs0, GoodRecord x)
    (hfile : fs.files.lookup (expenseFilePath u)
      = some (canonicalHeader :: rs0.map rowStrings)) :
    (expenseFormSubmit u r fs).files.lookup (expenseFilePath u)
      = some (canonicalHeader :: (rs0 ++ [r]).map rowStrings) := by
  obtain ⟨hv, hcat, hdna, hdnum, hdbool, hden, hpos⟩ := hr
  unfold expenseFormSubmit
  rw [show number_input 0 r.amount = some r.amount from by
    unfold number_input
    rw [if_neg (not_lt.mpr hpos)]]
  unfold load_expense_data
  rw [hfile]
  dsimp only
  rw [parseTable_canonical rs0 hrs0]
  unfold save_expense_data setFile
  simp only [List.lookup, beq_self_eq_true]
  congr 1
  simp [List.map_append, List.map_map, rowStrings, recordCells, Function.comp_def]

theorem submit_first (u : String) (r : ExpenseRecord) (fs : FS)
    (hr : GoodRecord r)
    (hfile : fs.files.lookup (expenseFilePath u) = none) :
    (expenseFormSubmit u r fs).files.lookup (expenseFilePath u)
      = some (canonicalHeader :: [r].map rowStrings) := by
  obtain ⟨hv, hcat, hdna, hdnum, hdbool, hden, hpos⟩ := hr
  unfold expenseFormSubmit
  rw [show number_input 0 r.amount = some r.amount from by
    unfold number_input
    rw [if_neg (not_lt.mpr hpos)]]
  unfold load_expense_data
  rw [hfile]
  dsimp only
  unfold save_expense_data setFile
  simp only [List.lookup, beq_self_eq_true]
  simp [rowStrings, recordCells]

theorem submitAll_file (u : String) (rs : List ExpenseRecord) :
    ∀ (rs0 : List ExpenseRecord) (fs : FS), (∀ x ∈ rs, GoodRecord x)
      → (∀ x ∈ rs0, GoodRecord x)
      → fs.files.lookup (expenseFilePath u) = some (canonicalHeader :: rs0.map rowStrings)
      → (submitAll u rs fs).files.lookup (expenseFilePath u)
          = some (canonicalHeader :: (rs0 ++ rs).map rowStrings) := by
  induction rs with
  | nil =>
      intro rs0 fs _ _ hfile
      simpa using hfile
  | cons r t ih =>
      intro rs0 fs hrs hrs0 hfile
      have hstep := submit_step u r rs0 fs (hrs r (by simp)) hrs0 hfile
      have hnext := ih (rs0 ++ [r]) (expenseFormSubmit u r fs)
        (fun x hx => hrs x (by simp [hx]))
        (fun x hx => by
          rcases List.mem_append.mp hx with hx0 | hxr
          · exact hrs0 x hx0
          · rw [List.mem_singleton.mp hxr]
            exact hrs r (by simp))
        hstep
      rw [show submitAll u (r :: t) fs = submitAll u t (expenseFormSubmit u r fs) from rfl]
      rw [hnext]
      simp

theorem parseRow_export (rows : List Row) (r : ExpenseRecord)
    (hnum3 : colIsNum rows 3 = true)
    (hv : r.date.Valid) (hcat : r.category ∈ categories)
    (hdna : r.description ∉ naValues) (hdnum : isNumericField r.description = false)
    (hdbool : parseBool? r.description = none)
    (hden : (r.amount * 100).den = 1) :
    (List.range (canonicalHeader ++ ["Month"]).length).map (fun j =>
      parseField ((canonicalHeader ++ ["Month"]).getD j "" == "Date") (colIsNum rows j)
        (colIsBool rows j) ((rowStrings r ++ [monthOfDate r.date]).getD j ""))
      = recordCells r ++ [Cell.str (monthOfDate r.date)] := by
  obtain ⟨hcna, hcnum, hcbool⟩ := categories_spec r.category hcat
  have hy4 : r.date.year < 10 ^ 4 := by
    obtain ⟨-, hy2, -⟩ := hv
    norm_num
    omega
  have hm2 : r.date.month < 10 ^ 2 := by
    obtain ⟨-, -, -, hm, -⟩ := hv
    norm_num
    omega
  have hmnum : isNumericField (monthOfDate r.date) = false := by
    unfold monthOfDate isNumericField
    rw [parseNumQ?_monthString hy4 hm2, parseInf?_monthString hy4]
    rfl
  have hmna : monthOfDate r.date ∉ naValues := monthString_not_na hy4
  have hmbool : parseBool? (monthOfDate r.date) = none :=
    parseBool?_monthString r.date.year r.date.month
  rw [show List.range (canonicalHeader ++ ["Month"]).length = [0, 1, 2, 3, 4] from rfl]
  rw [rowStrings_eq]
  simp only [List.cons_append, List.nil_append, List.map_cons, List.map_nil,
    List.getD_cons_zero, List.getD_cons_succ]
  rw [show ((canonicalHeader ++ ["Month"]).getD 0 "" == "Date") = true from rfl,
    show ((canonicalHeader ++ ["Month"]).getD 1 "" == "Date") = false from rfl,
    show ((canonicalHeader ++ ["Month"]).getD 2 "" == "Date") = false from rfl,
    show ((canonicalHeader ++ ["Month"]).getD 3 "" == "Date") = false from rfl,
    show ((canonicalHeader ++ ["Month"]).getD 4 "" == "Date") = false from rfl,
    hnum3, parseField_dateCol hv, parseField_strCol _ _ hcna hcnum hcbool,
    parseField_strCol _ _ hdna hdnum hdbool, parseField_amountCol hden,
    parseField_strCol _ _ hmna hmnum hmbool]
  rfl

theorem validYM_ymOf {r : ExpenseRecord} (h : r.date.Valid) : ValidYM (ymOf r) := by
  obtain ⟨-, hy, -, hm, -⟩ := h
  unfold ValidYM ymOf
  norm_num
  omega

theorem digitChar_lt_digitChar : ∀ a < 10, ∀ b < 10, a < b →
    Nat.digitChar a < Nat.digitChar b := by
  decide

theorem lex_append_right (l : List Char) {a b : List Char}
    (h : List.Lex (· < ·) a b) : List.Lex (· < ·) (l ++ a) (l ++ b) := by
  induction l with
  | nil => simpa using h
  | cons c t ih => exact List.Lex.cons ih

theorem lex_append_left {l1 l2 : List Char} (a b : List Char)
    (hlen : l1.length = l2.length) (h : List.Lex (· < ·) l1 l2) :
    List.Lex (· < ·) (l1 ++ a) (l2 ++ b) := by
  induction l1 generalizing l2 with
  | nil =>
      cases l2 with
      | nil => cases h
      | cons c t => simp at hlen
  | cons c1 t1 ih =>
      cases l2 with
      | nil => cases h
      | cons c2 t2 =>
          cases h with
          | rel hr => exact List.Lex.rel hr
          | cons hlex => exact List.Lex.cons (ih (by simpa using hlen) hlex)

theorem padDigits_lex_lt {w m n : Nat} (hmn : m < n) (hn : n < 10 ^ w) :
    List.Lex (· < ·) (padDigits w m) (padDigits w n) := by
  induction w generalizing m n with
  | zero =>
      rw [pow_zero] at hn
      omega
  | succ w ih =>
      have hm : m < 10 ^ (w + 1) := lt_trans hmn hn
      have hqn : n / 10 ^ w < 10 := by
        rw [Nat.div_lt_iff_lt_mul (pow_pos (by norm_num) w)]
        rw [pow_succ] at hn
        linarith
      have hqm : m / 10 ^ w < 10 := by
        rw [Nat.div_lt_iff_lt_mul (pow_pos (by norm_num) w)]
        rw [pow_succ] at hm
        linarith
      have hqle : m / 10 ^ w ≤ n / 10 ^ w := Nat.div_le_div_right (le_of_lt hmn)
      rcases lt_or_eq_of_le hqle with hq | hq
      · exact List.Lex.rel (digitChar_lt_digitChar _ hqm _ hqn hq)
      · simp only [padDigits]
        rw [hq]
        apply List.Lex.cons
        apply ih ?_ (Nat.mod_lt n (pow_pos (by norm_num) w))
        have h1 := Nat.div_add_mod m (10 ^ w)
        have h2 := Nat.div_add_mod n (10 ^ w)
        rw [hq] at h1
        generalize 10 ^ w * (n / 10 ^ w) = t at h1 h2
        omega

theorem monthChars_lex_lt {a b : Nat × Nat} (hb : ValidYM b)
    (hab : a.1 < b.1 ∨ (a.1 = b.1 ∧ a.2 < b.2)) :
    List.Lex (· < ·) (monthChars a.1 a.2) (monthChars b.1 b.2) := by
  unfold monthChars
  rcases hab with hy | ⟨hy, hm⟩
  · exact lex_append_left _ _ (by rw [length_padDigits, length_padDigits])
      (padDigits_lex_lt hy hb.1)
  · rw [hy]
    exact lex_append_right _ (List.Lex.cons (padDigits_lex_lt hm hb.2))

theorem monthString_lt {a b : Nat × Nat} (hb : ValidYM b)
    (hab : a.1 < b.1 ∨ (a.1 = b.1 ∧ a.2 < b.2)) :
    monthString a.1 a.2 < monthString b.1 b.2 := by
  rw [String.lt_iff_toList_lt]
  exact monthChars_lex_lt hb hab

theorem monthString_inj {a b : Nat × Nat} (ha : ValidYM a) (hb : ValidYM b)
    (h : monthString a.1 a.2 = monthString b.1 b.2) : a = b := by
  rcases Nat.lt_trichotomy a.1 b.1 with h1 | h1 | h1
  · exact absurd h (ne_of_lt (monthString_lt hb (Or.inl h1)))
  · rcases Nat.lt_trichotomy a.2 b.2 with h2 | h2 | h2
    · exact absurd h (ne_of_lt (monthString_lt hb (Or.inr ⟨h1, h2⟩)))
    · cases a
      cases b
      simp_all
    · exact absurd h.symm (ne_of_lt (monthString_lt ha (Or.inr ⟨h1.symm, h2⟩)))
  · exact absurd h.symm (ne_of_lt (monthString_lt ha (Or.inl h1)))

theorem strLtB_eq_ymLtB {a b : Nat × Nat} (ha : ValidYM a) (hb : ValidYM b) :
    strLtB (monthString a.1 a.2) (monthString b.1 b.2) = ymLtB a b := by
  unfold strLtB ymLtB
  rw [decide_eq_decide]
  constructor
  · intro hlt
    rcases Nat.lt_trichotomy a.1 b.1 with h1 | h1 | h1
    · exact Or.inl h1
    · rcases Nat.lt_trichotomy a.2 b.2 with h2 | h2 | h2
      · exact Or.inr ⟨h1, h2⟩
      · exfalso
        rw [show a = b from by cases a; cases b; simp_all] at hlt
        exact lt_irrefl _ hlt
      · exact absurd (monthString_lt ha (Or.inr ⟨h1.symm, h2⟩)) (lt_asymm hlt)
    · exact absurd (monthString_lt ha (Or.inl h1)) (lt_asymm hlt)
  · exact monthString_lt hb

/-! ### Sorting and dedup commute with an order-faithful key map -/

theorem mem_insertLe {α : Type} (le : α → α → Bool) (x : α) (l : List α) (z : α) :
    z ∈ insertLe le x l ↔ z = x ∨ z ∈ l := by
  induction l with
  | nil => simp [insertLe]
  | cons y ys ih =>
      unfold insertLe
      by_cases h : le x y
      · simp [h]
      · simp [h, ih]
        tauto

theorem mem_sortByLe {α : Type} (le : α → α → Bool) (l : List α) (z : α) :
    z ∈ sortByLe le l ↔ z ∈ l := by
  induction l with
  | nil => simp [sortByLe]
  | cons x xs ih =>
      unfold sortByLe at *
      simp only [List.foldr_cons]
      rw [mem_insertLe]
      simp [ih]

theorem insertLe_map {α β : Type} (f : α → β) (leA : α → α → Bool)
    (leB : β → β → Bool) (x : α) (l : List α)
    (hag : ∀ y ∈ l, leB (f x) (f y) = leA x y) :
    insertLe leB (f x) (l.map f) = (insertLe leA x l).map f := by
  induction l with
  | nil => rfl
  | cons y ys ih =>
      simp only [List.map_cons]
      unfold insertLe
      rw [hag y (by simp)]
      by_cases h : leA x y
      · simp [h]
      · simp only [h, Bool.false_eq_true, if_false,
          ih (fun z hz => hag z (by simp [hz])), List.map_cons]

theorem sortByLe_map {α β : Type} (f : α → β) (leA : α → α → Bool)
    (leB : β → β → Bool) (l : List α)
    (hag : ∀ x ∈ l, ∀ y ∈ l, leB (f x) (f y) = leA x y) :
    sortByLe leB (l.map f) = (sortByLe leA l).map f := by
  induction l with
  | nil => rfl
  | cons x xs ih =>
      simp only [List.map_cons]
      unfold sortByLe
      simp only [List.foldr_cons]
      have hs := ih (fun a ha b hb => hag a (by simp [ha]) b (by simp [hb]))
      rw [show List.foldr (insertLe leB) [] (xs.map f) = sortByLe leB (xs.map f) from rfl,
        show List.foldr (insertLe leA) [] xs = sortByLe leA xs from rfl, hs]
      apply insertLe_map
      intro y hy
      exact hag x (by simp) y (by simp [(mem_sortByLe leA xs y).mp hy])

theorem dedup_map_inj {α β : Type} [DecidableEq α] [DecidableEq β] (f : α → β)
    (l : List α) (hinj : ∀ x ∈ l, ∀ y ∈ l, f x = f y → x = y) :
    (l.map f).dedup = l.dedup.map f := by
  induction l with
  | nil => rfl
  | cons x xs ih =>
      simp only [List.map_cons]
      have hinner : ∀ a ∈ xs, ∀ b ∈ xs, f a = f b → a = b :=
        fun a ha b hb => hinj a (by simp [ha]) b (by simp [hb])
      by_cases hx : x ∈ xs
      · rw [List.dedup_cons_of_mem hx,
          List.dedup_cons_of_mem (List.mem_map_of_mem f hx), ih hinner]
      · have hfx : f x ∉ xs.map f := by
          intro hmem
          rw [List.mem_map] at hmem
          obtain ⟨y, hy, he⟩ := hmem
          have hxy := hinj x (by simp) y (by simp [hy]) he.symm
          exact hx (by rw [hxy]; exact hy)
        rw [List.dedup_cons_of_not_mem hx, List.dedup_cons_of_not_mem hfx,
          List.map_cons, ih hinner]

/-- Claim C9: the monthly aggregation computed by the code — group the records
by their `YYYY-MM` month string, sum the amounts per key, emit the keys in
sorted string order — refines the spec's `aggregateByMonth`: exactly the
occupied calendar year-months, in chronological order, each carrying the sum
of the amounts of the records in that year-month. -/
theorem aggregateByMonth_chronological (rs : List ExpenseRecord)
    (hval : ∀ r ∈ rs, r.date.Valid) :
    monthly_sum rs
      = (aggregateByMonthSpec rs).map (fun p => (monthString p.1.1 p.1.2, p.2)) := by
  have hvm : ∀ p ∈ rs.map ymOf, ValidYM p := by
    intro p hp
    rw [List.mem_map] at hp
    obtain ⟨r, hr, hp⟩ := hp
    subst hp
    exact validYM_ymOf (hval r hr)
  have hvd : ∀ p ∈ (rs.map ymOf).dedup, ValidYM p :=
    fun p hp => hvm p (List.mem_dedup.mp hp)
  have hinj : ∀ x ∈ rs.map ymOf, ∀ y ∈ rs.map ymOf,
      (fun p : Nat × Nat => monthString p.1 p.2) x
        = (fun p : Nat × Nat => monthString p.1 p.2) y → x = y :=
    fun x hx y hy => monthString_inj (hvm x hx) (hvm y hy)
  have hk : (rs.map (fun r => (monthOfDate r.date, r.amount))).map Prod.fst
      = (rs.map ymOf).map (fun p : Nat × Nat => monthString p.1 p.2) := by
    rw [List.map_map, List.map_map]
    rfl
  have hded : ((rs.map ymOf).map (fun p : Nat × Nat => monthString p.1 p.2)).dedup
      = ((rs.map ymOf).dedup).map (fun p : Nat × Nat => monthString p.1 p.2) :=
    dedup_map_inj _ _ hinj
  have hsort : sortByLe strLtB
        (((rs.map ymOf).dedup).map (fun p : Nat × Nat => monthString p.1 p.2))
      = (sortByLe ymLtB ((rs.map ymOf).dedup)).map
          (fun p : Nat × Nat => monthString p.1 p.2) :=
    sortByLe_map _ ymLtB strLtB _
      (fun x hx y hy => strLtB_eq_ymLtB (hvd x hx) (hvd y hy))
  unfold monthly_sum aggregateByMonthSpec
  dsimp only
  rw [hk, hded, hsort, List.map_map, List.map_map]
  apply List.map_congr_left
  intro ym hym
  have hymd : ym ∈ (rs.map ymOf).dedup := (mem_sortByLe _ _ ym).mp hym
  have hymv : ValidYM ym := hvd ym hymd
  simp only [Function.comp_def]
  refine congrArg (Prod.mk _) ?_
  rw [List.filter_map]
  rw [List.map_map]
  have hfil : List.filter ((fun p : String × ℚ => p.1 == monthString ym.1 ym.2)
        ∘ fun r => (monthOfDate r.date, r.amount)) rs
      = List.filter (fun r => ymOf r == ym) rs := by
    apply List.filter_congr
    intro r hr
    simp only [Function.comp_def]
    rw [Bool.eq_iff_iff, beq_iff_eq, beq_iff_eq]
    constructor
    · intro he
      exact monthString_inj (validYM_ymOf (hval r hr)) hymv he
    · intro he
      rw [show monthOfDate r.date = monthString (ymOf r).1 (ymOf r).2 from rfl, he]
  rw [hfil]
  rfl

unseal Rat.mul Rat.add Rat.sub Rat.inv Rat.ofScientific in
/-- Witness for `aggregateByMonth_chronological` on three concrete records
spanning two months (the spec's own example: 2024-01 sums to 15, 2024-02
to 7, in that key order). -/
theorem aggregateByMonth_chronological_w :
    monthly_sum
        [⟨⟨2024, 1, 5⟩, "Food", "a", 10⟩, ⟨⟨2024, 1, 20⟩, "Bills", "b", 5⟩,
         ⟨⟨2024, 2, 1⟩, "Other", "c", 7⟩]
      = (aggregateByMonthSpec
          [⟨⟨2024, 1, 5⟩, "Food", "a", 10⟩, ⟨⟨2024, 1, 20⟩, "Bills", "b", 5⟩,
           ⟨⟨2024, 2, 1⟩, "Other", "c", 7⟩]).map
          (fun p => (monthString p.1.1 p.1.2, p.2)) :=
  aggregateByMonth_chronological
    [⟨⟨2024, 1, 5⟩, "Food", "a", 10⟩, ⟨⟨2024, 1, 20⟩, "Bills", "b", 5⟩,
     ⟨⟨2024, 2, 1⟩, "Other", "c", 7⟩] (by decide)

end ExpenseTracker
